import Mathlib

/-
Verification of the SyncDiff directory-comparison tool (diff.py).

The development embeds the program shallowly:

* Compiled exclusion rules (`re.compile` results) are modelled by a small
  regular-expression type `Regex` together with the Brzozowski-derivative
  matcher `matchList` (full match) and `searchB` (Python's `re.search`:
  try a full match of the pattern on every substring).
* `hashlib.md5` is modelled by a byte-accurate MD5 implementation over
  `List Nat` byte strings; the incremental md5 object is modelled by its
  accumulated byte buffer (`md5update` appends, `hexdigest` hashes the
  buffer), which is the observable semantics of hashlib's streaming API.
* The filesystem below a root directory is a tree `FSTree`: a directory
  listing in `os.scandir` order, written as a chain of `file`/`dir` cells.
  `walkRel` reproduces `os.walk` (top-down, depth first), paired with
  `os.path.relpath` against the root (the root itself has relative path
  "."). A nonexistent root is `Option.none`: `os.walk` with its default
  `onerror=None` silently yields nothing for a missing root.
* Files carry their byte content, a `readable` flag (whether `open`/`read`
  succeeds, i.e. whether `get_md5` would raise) and a `statOk` flag
  (whether `os.stat` succeeds).
* `compare` returns the list of per-path classification records that the
  Python loop prints, paired with `Option HashErr`: `some e` means an
  uncaught hashing exception escaped the loop at that point (the loop body
  has no try/except), so the records are the output emitted before the
  abort.
* The configuration-driven main loop is modelled by `processSections`;
  `re.compile` is an external primitive and is passed as a function
  argument `compile`.
-/

namespace SyncDiff

/-! ## Exclusion rules: Python regular expressions -/

/-- Abstract syntax of the regular expressions used as exclusion rules
(`re.compile` patterns): empty language, empty string, single character,
alternation, concatenation, Kleene star. -/
inductive Regex where
  | emptyset : Regex
  | eps : Regex
  | char : Char → Regex
  | alt : Regex → Regex → Regex
  | cat : Regex → Regex → Regex
  | star : Regex → Regex
  deriving DecidableEq

/-- Whether a regular expression accepts the empty string. -/
def nullable : Regex → Bool
  | .emptyset => false
  | .eps => true
  | .char _ => false
  | .alt r s => nullable r || nullable s
  | .cat r s => nullable r && nullable s
  | .star _ => true

/-- Brzozowski derivative of a regular expression by one character. -/
def deriv : Regex → Char → Regex
  | .emptyset, _ => .emptyset
  | .eps, _ => .emptyset
  | .char d, c => if c = d then .eps else .emptyset
  | .alt r s, c => .alt (deriv r c) (deriv s c)
  | .cat r s, c =>
      if nullable r then .alt (.cat (deriv r c) s) (deriv s c)
      else .cat (deriv r c) s
  | .star r, c => .cat (deriv r c) (.star r)

/-- Full match of a regular expression against a character list
(Python's `re.fullmatch`). -/
def matchList (r : Regex) (cs : List Char) : Bool :=
  nullable (cs.foldl deriv r)

/-- Python's `re.search` on a character list: the pattern is tried at every
start position and may end anywhere, i.e. some factor of the input is fully
matched.  Implemented by scanning all suffixes and, within each suffix, all
of its leading segments. -/
def searchB (r : Regex) (cs : List Char) : Bool :=
  cs.tails.any (fun t => t.inits.any (fun m => matchList r m))

/-- `compiledRule.search(path)` on a Lean `String`. -/
def Regex.search (r : Regex) (s : String) : Bool :=
  searchB r s.data

/-- The regular expression matching exactly the literal string `s`
(a pattern with no metacharacters). -/
def strRegex (s : String) : Regex :=
  s.data.foldr (fun c r => Regex.cat (Regex.char c) r) Regex.eps

/-- `should_ignore(path, rules)` from diff.py: true when any compiled rule's
`search` finds a match somewhere in the path string. -/
def should_ignore (path : String) (rules : List Regex) : Bool :=
  rules.any (fun r => r.search path)

/-- `parse_ignore_rules(rule_string)` from diff.py: an empty (falsy) string
yields no rules; otherwise the string is split on ";", each segment is
stripped, and non-empty segments are compiled as raw regular expressions.
`re.compile` is external and passed in as `compile`. -/
def parse_ignore_rules (compile : String → Regex) (rule_string : String) :
    List Regex :=
  if rule_string = "" then []
  else (rule_string.splitOn ";").filterMap (fun r =>
    if r.trim = "" then none else some (compile r.trim))

/-! ## ContentHasher: `get_md5` and MD5 -/

/-- Chunking of a byte stream, fueled to keep the recursion structural.
One step takes the next `n` bytes.  With `fuel ≥ l.length` and `n ≥ 1` this
produces exactly the chunks `f.read(n)` yields. -/
def chunksFuel (fuel : Nat) (n : Nat) (l : List Nat) : List (List Nat) :=
  match fuel, l with
  | 0, _ => []
  | _, [] => []
  | f + 1, x :: xs => (x :: xs).take n :: chunksFuel f n ((x :: xs).drop n)

/-- The sequence of chunks the loop `while data := f.read(chunk)` reads from
a file with the given byte content.  For `n = 0`, `f.read(0)` returns the
empty (falsy) bytes object, so the loop exits immediately and no chunk is
read. -/
def readChunks (n : Nat) (l : List Nat) : List (List Nat) :=
  if n = 0 then [] else chunksFuel l.length n l

/-- State of a fresh `hashlib.md5()` object, modelled by the bytes fed to it
so far. -/
def md5init : List Nat := []

/-- `md5.update(data)` appends the chunk to the stream hashed so far (the
observable semantics of hashlib's incremental interface). -/
def md5update (buf : List Nat) (data : List Nat) : List Nat := buf ++ data

/-- The 64 MD5 sine-derived round constants. -/
def md5K : List Nat :=
  [0xd76aa478, 0xe8c7b756, 0x242070db, 0xc1bdceee,
   0xf57c0faf, 0x4787c62a, 0xa8304613, 0xfd469501,
   0x698098d8, 0x8b44f7af, 0xffff5bb1, 0x895cd7be,
   0x6b901122, 0xfd987193, 0xa679438e, 0x49b40821,
   0xf61e2562, 0xc040b340, 0x265e5a51, 0xe9b6c7aa,
   0xd62f105d, 0x02441453, 0xd8a1e681, 0xe7d3fbc8,
   0x21e1cde6, 0xc33707d6, 0xf4d50d87, 0x455a14ed,
   0xa9e3e905, 0xfcefa3f8, 0x676f02d9, 0x8d2a4c8a,
   0xfffa3942, 0x8771f681, 0x6d9d6122, 0xfde5380c,
   0xa4beea44, 0x4bdecfa9, 0xf6bb4b60, 0xbebfbc70,
   0x289b7ec6, 0xeaa127fa, 0xd4ef3085, 0x04881d05,
   0xd9d4d039, 0xe6db99e5, 0x1fa27cf8, 0xc4ac5665,
   0xf4292244, 0x432aff97, 0xab9423a7, 0xfc93a039,
   0x655b59c3, 0x8f0ccc92, 0xffeff47d, 0x85845dd1,
   0x6fa87e4f, 0xfe2ce6e0, 0xa3014314, 0x4e0811a1,
   0xf7537e82, 0xbd3af235, 0x2ad7d2bb, 0xeb86d391]

/-- The 64 MD5 per-round left-rotation amounts. -/
def md5S : List Nat :=
  [7, 12, 17, 22, 7, 12, 17, 22, 7, 12, 17, 22, 7, 12, 17, 22,
   5, 9, 14, 20, 5, 9, 14, 20, 5, 9, 14, 20, 5, 9, 14, 20,
   4, 11, 16, 23, 4, 11, 16, 23, 4, 11, 16, 23, 4, 11, 16, 23,
   6, 10, 15, 21, 6, 10, 15, 21, 6, 10, 15, 21, 6, 10, 15, 21]

/-- 32-bit left rotation. -/
def rotl32 (x n : Nat) : Nat :=
  ((x <<< n) ||| (x >>> (32 - n))) % 4294967296

/-- MD5 round mixing function (F, G, H, I depending on the round index). -/
def md5F (i b c d : Nat) : Nat :=
  if i < 16 then (b &&& c) ||| ((4294967295 ^^^ b) &&& d)
  else if i < 32 then (d &&& b) ||| ((4294967295 ^^^ d) &&& c)
  else if i < 48 then b ^^^ c ^^^ d
  else c ^^^ (b ||| (4294967295 ^^^ d))

/-- MD5 message-word schedule. -/
def md5G (i : Nat) : Nat :=
  if i < 16 then i
  else if i < 32 then (5 * i + 1) % 16
  else if i < 48 then (3 * i + 5) % 16
  else (7 * i) % 16

/-- Little-endian 32-bit word `j` of a 64-byte block. -/
def md5Word (blk : List Nat) (j : Nat) : Nat :=
  blk.getD (4 * j) 0 + 256 * blk.getD (4 * j + 1) 0 +
    65536 * blk.getD (4 * j + 2) 0 + 16777216 * blk.getD (4 * j + 3) 0

/-- One of the 64 MD5 rounds. -/
def md5Round (blk : List Nat) (st : Nat × Nat × Nat × Nat) (i : Nat) :
    Nat × Nat × Nat × Nat :=
  match st with
  | (a, b, c, d) =>
    let t := (a + md5F i b c d + md5K.getD i 0 + md5Word blk (md5G i)) %
      4294967296
    (d, (b + rotl32 t (md5S.getD i 0)) % 4294967296, b, c)

/-- Compression of one 64-byte block into the running state. -/
def md5Block (st : Nat × Nat × Nat × Nat) (blk : List Nat) :
    Nat × Nat × Nat × Nat :=
  match st, (List.range 64).foldl (md5Round blk) st with
  | (a0, b0, c0, d0), (a, b, c, d) =>
    ((a0 + a) % 4294967296, (b0 + b) % 4294967296,
     (c0 + c) % 4294967296, (d0 + d) % 4294967296)

/-- Little-endian bytes of a 64-bit length field. -/
def le8 (n : Nat) : List Nat :=
  [n % 256, n / 256 % 256, n / 65536 % 256, n / 16777216 % 256,
   n / 4294967296 % 256, n / 1099511627776 % 256,
   n / 281474976710656 % 256, n / 72057594037927936 % 256]

/-- MD5 padding: a 0x80 byte, zeros up to 56 mod 64, then the original bit
length modulo 2^64, little endian. -/
def md5Pad (msg : List Nat) : List Nat :=
  msg ++ 128 :: List.replicate ((119 - msg.length % 64) % 64) 0 ++
    le8 ((8 * msg.length) % 18446744073709551616)

/-- The four 32-bit MD5 state words of a byte string. -/
def md5core (msg : List Nat) : Nat × Nat × Nat × Nat :=
  (readChunks 64 (md5Pad msg)).foldl md5Block
    (0x67452301, 0xefcdab89, 0x98badcfe, 0x10325476)

/-- Little-endian bytes of a 32-bit state word. -/
def le4 (n : Nat) : List Nat :=
  [n % 256, n / 256 % 256, n / 65536 % 256, n / 16777216 % 256]

/-- The sixteen lowercase hexadecimal digits. -/
def hexChars : List Char := "0123456789abcdef".data

/-- Two lowercase hex characters of one byte. -/
def byteHex (b : Nat) : List Char :=
  [hexChars.getD (b / 16) '0', hexChars.getD (b % 16) '0']

/-- The lowercase hexadecimal MD5 digest of a byte string. -/
def md5hex (msg : List Nat) : String :=
  String.mk ((le4 (md5core msg).1 ++ le4 (md5core msg).2.1 ++
    le4 (md5core msg).2.2.1 ++ le4 (md5core msg).2.2.2).flatMap byteHex)

/-- `md5.hexdigest()` on the accumulated stream. -/
def hexdigest (buf : List Nat) : String := md5hex buf

/-- Per-file data as the filesystem presents it to diff.py: the byte
content, whether opening and reading it succeeds (`get_md5` raises an
uncaught exception otherwise), whether `os.stat` succeeds, and the size and
formatted modification time that `os.stat` would report. -/
structure FileData where
  content : List Nat
  readable : Bool
  statOk : Bool
  size : Nat
  mtime : String
  deriving DecidableEq

/-- `get_md5(path, chunk)` from diff.py: reads the file in `chunk`-byte
pieces, feeding each piece to the md5 accumulator, and returns the final
hex digest; `none` models the uncaught exception when the file cannot be
read. -/
def get_md5 (fd : FileData) (chunk : Nat) : Option String :=
  if fd.readable then
    some (hexdigest ((readChunks chunk fd.content).foldl md5update md5init))
  else none

/-- Result of `get_file_info`: optional size and optional formatted
modification time. -/
structure FileInfo where
  size : Option Nat
  mtime : Option String
  deriving DecidableEq

/-- `get_file_info(file_path)` from diff.py: size and modification time from
`os.stat`, degraded to a pair of `None` when the stat call raises. -/
def get_file_info (fd : FileData) : FileInfo :=
  if fd.statOk then ⟨some fd.size, some fd.mtime⟩ else ⟨none, none⟩

/-! ## TreeCollector: `os.walk` and `collect_files` -/

/-- A directory listing in `os.scandir` order, written as a chain of
entries: `file name fd rest` is a regular file followed by the rest of the
listing, `dir name sub rest` is a subdirectory (with its own listing `sub`)
followed by the rest. -/
inductive FSTree where
  | nil : FSTree
  | file : String → FileData → FSTree → FSTree
  | dir : String → FSTree → FSTree → FSTree

/-- The regular files of one directory listing, in order (the `fs` component
of an `os.walk` triple). -/
def filesOf : FSTree → List (String × FileData)
  | .nil => []
  | .file n fd rest => (n, fd) :: filesOf rest
  | .dir _ _ rest => filesOf rest

/-- `os.path.relpath(os.path.join(root, name), base)` when `root` has
relative path `relDir` under `base` (`"."` for the root itself). -/
def joinRel (relDir name : String) : String :=
  if relDir = "." then name else relDir ++ "/" ++ name

/-- The `os.walk` entries strictly below a directory whose relative path is
`relDir`: for each subdirectory in listing order, its own entry followed by
the entries below it (top-down, depth-first, exactly `os.walk`'s default
order).  Each entry is the directory's relative path paired with its file
listing. -/
def walkChildren (relDir : String) : FSTree → List (String × List (String × FileData))
  | .nil => []
  | .file _ _ rest => walkChildren relDir rest
  | .dir n sub rest =>
      (joinRel relDir n, filesOf sub) :: walkChildren (joinRel relDir n) sub ++
        walkChildren relDir rest

/-- All `os.walk` entries of a root directory, each paired with its path
relative to the root (`os.path.relpath(root, base)`, which is `"."` for the
root itself). -/
def walkRel (t : FSTree) : List (String × List (String × FileData)) :=
  (".", filesOf t) :: walkChildren "." t

/-- The relative paths of every directory the traversal of `collect_files`
visits (lists with `os.scandir`): `os.walk` yields all of them, whatever the
exclusion rules, because diff.py never edits the `dirs` list. -/
def visitedDirs (root : Option FSTree) : List String :=
  match root with
  | none => []
  | some t => (walkRel t).map Prod.fst

/-- A TreeIndex: the mapping from relative path to the file it denotes,
as an association list in insertion order. -/
abbrev TreeIndex : Type := List (String × FileData)

/-- The files one `os.walk` entry contributes to the index: nothing when the
directory (other than the root) is ignored, otherwise its files whose own
relative paths are not ignored. -/
def dirFiles (rules : List Regex) (e : String × List (String × FileData)) :
    List (String × FileData) :=
  if e.1 ≠ "." ∧ should_ignore e.1 rules = true then []
  else e.2.filterMap (fun f =>
    if should_ignore (joinRel e.1 f.1) rules then none
    else some (joinRel e.1 f.1, f.2))

/-- `collect_files(base, rules)` from diff.py.  A `none` root models a
nonexistent base directory: `os.walk` (default `onerror=None`) swallows the
scandir error and yields nothing, so the function returns an empty index
rather than raising. -/
def collect_files (root : Option FSTree) (rules : List Regex) : TreeIndex :=
  match root with
  | none => []
  | some t => (walkRel t).foldl (fun acc e => acc ++ dirFiles rules e) []

/-- The relative paths (keys) of a TreeIndex. -/
def keys (m : TreeIndex) : List String := m.map Prod.fst

/-- Association-list lookup, modelling `dict.get`. -/
def lookup (k : String) : List (String × α) → Option α
  | [] => none
  | (k', v) :: rest => if k' = k then some v else lookup k rest

/-! ## ComparisonEngine: `compare` -/

/-- Lexicographic comparison of character lists by code point, which is
exactly Python's `<` on strings. -/
def lexLt : List Char → List Char → Bool
  | [], [] => false
  | [], _ :: _ => true
  | _ :: _, [] => false
  | c :: cs, d :: ds =>
      if c < d then true else if d < c then false else lexLt cs ds

/-- Python's `<` on strings: lexicographic by code point. -/
def strLt (s t : String) : Bool := lexLt s.data t.data

/-- Insert a path into a strictly increasing list, keeping it strictly
increasing (duplicates are dropped). -/
def insUnion (x : String) : List String → List String
  | [] => [x]
  | y :: ys =>
      if x = y then y :: ys
      else if strLt x y then x :: y :: ys
      else y :: insUnion x ys

/-- `sorted(set(xs) | set(ys))`: the strictly increasing enumeration (Python
string order, i.e. lexicographic on code points) of the union of the two key
sets. -/
def sortedUnion (xs ys : List String) : List String :=
  (xs ++ ys).foldr insUnion []

/-- Which side of the comparison a hashing failure occurred on. -/
inductive Side where
  | A : Side
  | B : Side
  deriving DecidableEq

/-- An uncaught exception escaping `get_md5` inside the comparison loop:
the path being processed and the side whose read failed. -/
structure HashErr where
  path : String
  side : Side
  deriving DecidableEq

/-- The classification the loop body of `compare` assigns to one path. -/
inductive ResultTag where
  | identical : ResultTag
  | differing : ResultTag
  | onlyInA : ResultTag
  | onlyInB : ResultTag
  deriving DecidableEq

/-- One per-path record of `compare`'s output: the classification, and (for
differing files only) the digests and `get_file_info` metadata the report
prints.  Identical files produce no digests and no metadata in the output. -/
structure DiffResult where
  path : String
  tag : ResultTag
  md5A : Option String
  md5B : Option String
  metaA : Option FileInfo
  metaB : Option FileInfo
  deriving DecidableEq

/-- The body of `compare`'s loop for a path present in both trees:
`get_md5(pa)` is evaluated first, then `get_md5(pb)`; a read failure on
either raises (there is no try/except).  Equal digests classify the path as
identical with nothing gathered; different digests gather `get_file_info`
on both sides. -/
def classifyBoth (rel : String) (fda fdb : FileData) :
    Except HashErr DiffResult :=
  match get_md5 fda 4096 with
  | none => .error ⟨rel, Side.A⟩
  | some ha =>
    match get_md5 fdb 4096 with
    | none => .error ⟨rel, Side.B⟩
    | some hb =>
      if ha ≠ hb then
        .ok { path := rel, tag := .differing, md5A := some ha,
              md5B := some hb, metaA := some (get_file_info fda),
              metaB := some (get_file_info fdb) }
      else
        .ok { path := rel, tag := .identical, md5A := none, md5B := none,
              metaA := none, metaB := none }

/-- One iteration of `compare`'s loop: `pa, pb = files_a.get(rel),
files_b.get(rel)`, then `if pa and pb ... elif pa ... else ...`. -/
def compareStep (a b : TreeIndex) (rel : String) :
    Except HashErr DiffResult :=
  match lookup rel a, lookup rel b with
  | some fda, some fdb => classifyBoth rel fda fdb
  | some _, none =>
      .ok { path := rel, tag := .onlyInA, md5A := none, md5B := none,
            metaA := none, metaB := none }
  | none, _ =>
      .ok { path := rel, tag := .onlyInB, md5A := none, md5B := none,
            metaA := none, metaB := none }

/-- `compare`'s loop over the sorted union of paths.  The first component is
the sequence of records emitted before any failure; the second is `some e`
when an uncaught hashing exception aborted the loop (everything from that
path on is then missing from the output). -/
def compareLoop (a b : TreeIndex) : List String → List DiffResult × Option HashErr
  | [] => ([], none)
  | rel :: rest =>
    match compareStep a b rel with
    | .error e => ([], some e)
    | .ok r =>
      ((r :: (compareLoop a b rest).1), (compareLoop a b rest).2)

/-- `compare` from diff.py, lines 53 onward: classify every path of
`sorted(set(files_a) | set(files_b))` in order. -/
def compare (a b : TreeIndex) : List DiffResult × Option HashErr :=
  compareLoop a b (sortedUnion (keys a) (keys b))

/-! ## Configuration loop of `main` -/

/-- One configuration section: its name and its options in insertion order
(`config.optionxform = str`, so key case is preserved). -/
structure ConfigSection where
  name : String
  options : List (String × String)

/-- `k.startswith("folder_")` (character-wise, as Python strings are
sequences of code points). -/
def listStarts : List Char → List Char → Bool
  | [], _ => true
  | _ :: _, [] => false
  | c :: cs, d :: ds => c == d && listStarts cs ds

/-- Python's `str.startswith`. -/
def strStarts (p s : String) : Bool := listStarts p.data s.data

/-- The `folder_`-prefixed option names of a section, in insertion order
(the `folder_keys` list of `main`). -/
def folder_keys (s : ConfigSection) : List String :=
  (s.options.map Prod.fst).filter (fun k => strStarts "folder_" k)

/-- One observable event of `main`'s section loop. -/
inductive Event where
  | configError : String → Nat → Event
  | missingDir : String → String → Event
  | jobRun : String → String → String → List DiffResult × Option HashErr → Event

/-- The body of `main`'s loop for one section: parse the ignore rules,
require exactly two `folder_` keys (else report and skip), require both
folders to exist (else report and skip), then run the comparison job.  The
filesystem is `fsys` (path to directory tree, `none` when the path does not
exist) and `re.compile` is the external `compile`. -/
def processSection (fsys : String → Option FSTree) (compile : String → Regex)
    (s : ConfigSection) : List Event :=
  let rules := parse_ignore_rules compile ((lookup "ignore" s.options).getD "")
  match folder_keys s with
  | [na, nb] =>
    let fa := (lookup na s.options).getD ""
    let fb := (lookup nb s.options).getD ""
    match fsys fa with
    | none => [Event.missingDir s.name fa]
    | some ta =>
      match fsys fb with
      | none => [Event.missingDir s.name fb]
      | some tb =>
        [Event.jobRun s.name (String.mk (na.data.drop 7))
          (String.mk (nb.data.drop 7))
          (compare (collect_files (some ta) rules)
            (collect_files (some tb) rules))]
  | other => [Event.configError s.name other.length]

/-- `main`'s loop over all configuration sections, in order. -/
def processSections (fsys : String → Option FSTree)
    (compile : String → Regex) : List ConfigSection → List Event
  | [] => []
  | s :: rest => processSection fsys compile s ++ processSections fsys compile rest

/-! ## Concrete instances used by witnesses and counterexamples -/

/-- A readable five-byte file with content "hello". -/
def exFdHello : FileData := ⟨[104, 101, 108, 108, 111], true, true, 5, "2024-01-01 10:00:00"⟩

/-- A readable one-byte file with content "x". -/
def exFdX : FileData := ⟨[120], true, true, 1, "2024-01-02 10:00:00"⟩

/-- A readable one-byte file with content "y". -/
def exFdY : FileData := ⟨[121], true, true, 1, "2024-01-03 10:00:00"⟩

/-- A file whose open/read raises (e.g. permission denied). -/
def exFdBad : FileData := ⟨[120], false, true, 1, "2024-01-02 10:00:00"⟩

/-- A readable file with content "y" whose `os.stat` raises. -/
def exFdYNoStat : FileData := ⟨[121], true, false, 7, "2024-01-03 10:00:00"⟩

/-- A root directory containing `f1.txt`, a subdirectory `skip` (holding
`f.txt` and a deeper subdirectory `deep` holding `g.txt`), and `f2.txt`. -/
def exTreeC1 : FSTree :=
  .file "f1.txt" exFdHello
    (.dir "skip"
      (.file "f.txt" exFdX (.dir "deep" (.file "g.txt" exFdY .nil) .nil))
      (.file "f2.txt" exFdX .nil))

/-- The single exclusion rule `skip` (a literal pattern). -/
def exRulesC1 : List Regex := [strRegex "skip"]

/-- Left tree index with an unreadable `a.txt` and a readable `b.txt`. -/
def exA2 : TreeIndex := [("a.txt", exFdBad), ("b.txt", exFdX)]

/-- Right tree index with both files readable. -/
def exB2 : TreeIndex := [("a.txt", exFdX), ("b.txt", exFdX)]

/-- Left tree index with a single unreadable `x.txt`. -/
def exA3 : TreeIndex := [("x.txt", exFdBad)]

/-- Right tree index with readable `x.txt` and `y.txt`. -/
def exB3 : TreeIndex := [("x.txt", exFdX), ("y.txt", exFdY)]

/-- Left index for the metadata claim: one readable, stat-able file. -/
def exA7 : TreeIndex := [("d.txt", exFdX)]

/-- Right index for the metadata claim: same path, different content, with a
failing `os.stat`. -/
def exB7 : TreeIndex := [("d.txt", exFdYNoStat)]

/-- The differing record `compare exA7 exB7` emits: both digests, metadata
on side A, and null-degraded metadata on side B. -/
def exR7 : DiffResult :=
  { path := "d.txt", tag := .differing,
    md5A := some "9dd4e461268c8034f5c8564e155c67a6",
    md5B := some "415290769594460e2e485922904f345d",
    metaA := some ⟨some 1, some "2024-01-02 10:00:00"⟩,
    metaB := some ⟨none, none⟩ }

/-- Left tree index of the specification's concrete scenario:
`f1.txt`="hello", `f2.txt`="x". -/
def exA3w : TreeIndex := [("f1.txt", exFdHello), ("f2.txt", exFdX)]

/-- Right tree index of the specification's concrete scenario:
`f1.txt`="hello", `f3.txt`="y". -/
def exB3w : TreeIndex := [("f1.txt", exFdHello), ("f3.txt", exFdY)]

/-- A readable one-byte file with content "a". -/
def exFdA8 : FileData := ⟨[97], true, true, 1, "2024-01-04 10:00:00"⟩

/-- A configuration section with three `folder_` keys. -/
def exSecBad : ConfigSection :=
  ⟨"backup", [("folder_a", "/a"), ("folder_b", "/b"), ("folder_c", "/c")]⟩

/-- A following configuration section (with one `folder_` key, so it is
also reported — which shows the loop kept running). -/
def exSecNext : ConfigSection := ⟨"docs", [("folder_x", "/x")]⟩

/-- A filesystem with no directories at all. -/
def exFsEmpty : String → Option FSTree := fun _ => none

/-- A trivial stand-in for `re.compile`. -/
def exCompile : String → Regex := fun _ => Regex.eps

/-! ## Lemmas about `re.search` and `should_ignore` -/

/-- `re.search` succeeds exactly when some factor (contiguous substring) of
the input is fully matched by the pattern. -/
theorem searchB_iff (r : Regex) (cs : List Char) :
    searchB r cs = true ↔
      ∃ xs ms ys, cs = xs ++ ms ++ ys ∧ matchList r ms = true := by
  unfold searchB
  rw [List.any_eq_true]
  constructor
  · rintro ⟨t, ht, hm⟩
    rw [List.any_eq_true] at hm
    obtain ⟨m, hmem, hmatch⟩ := hm
    obtain ⟨xs, rfl⟩ := (List.mem_tails t cs).mp ht
    obtain ⟨ys, rfl⟩ := (List.mem_inits m t).mp hmem
    exact ⟨xs, m, ys, by rw [List.append_assoc], hmatch⟩
  · rintro ⟨xs, ms, ys, rfl, hmatch⟩
    refine ⟨ms ++ ys, (List.mem_tails _ _).mpr ⟨xs, by rw [List.append_assoc]⟩, ?_⟩
    rw [List.any_eq_true]
    exact ⟨ms, (List.mem_inits _ _).mpr ⟨ys, rfl⟩, hmatch⟩

/-- `should_ignore` succeeds exactly when some rule's pattern fully matches
some factor of the path. -/
theorem should_ignore_iff (path : String) (rules : List Regex) :
    should_ignore path rules = true ↔
      ∃ r ∈ rules, ∃ xs ms ys,
        path.data = xs ++ ms ++ ys ∧ matchList r ms = true := by
  unfold should_ignore Regex.search
  rw [List.any_eq_true]
  constructor
  · rintro ⟨r, hr, hs⟩
    exact ⟨r, hr, (searchB_iff r path.data).mp hs⟩
  · rintro ⟨r, hr, hs⟩
    exact ⟨r, hr, (searchB_iff r path.data).mpr hs⟩

/-- A match found in `d` is still found in any extension `d ++ rest`
(unanchored search is monotone under appending). -/
theorem should_ignore_extend (d rest : String) (rules : List Regex)
    (h : should_ignore d rules = true) :
    should_ignore (d ++ rest) rules = true := by
  rw [should_ignore_iff] at h ⊢
  obtain ⟨r, hr, xs, ms, ys, hd, hm⟩ := h
  refine ⟨r, hr, xs, ms, ys ++ rest.data, ?_, hm⟩
  rw [String.data_append, hd, List.append_assoc, List.append_assoc]

/-! ## Lemmas about the path order and `sortedUnion` -/

theorem lexLt_irrefl (l : List Char) : lexLt l l = false := by
  induction l with
  | nil => rfl
  | cons c cs ih => simp [lexLt, lt_irrefl, ih]

theorem lexLt_trans : ∀ {a b c : List Char},
    lexLt a b = true → lexLt b c = true → lexLt a c = true
  | [], b, c, h1, h2 => by
    cases c with
    | nil =>
      cases b with
      | nil => exact h2
      | cons y ys => simp [lexLt] at h2
    | cons z zs => rfl
  | x :: xs, b, c, h1, h2 => by
    cases b with
    | nil => simp [lexLt] at h1
    | cons y ys =>
      cases c with
      | nil => simp [lexLt] at h2
      | cons z zs =>
        rcases lt_trichotomy x y with hxy | rfl | hxy
        · rcases lt_trichotomy y z with hyz | rfl | hyz
          · simp [lexLt, lt_trans hxy hyz]
          · simp [lexLt, hxy]
          · simp only [lexLt, if_neg (lt_asymm hyz), if_pos hyz] at h2
            cases h2
        · rcases lt_trichotomy x z with hxz | rfl | hxz
          · simp [lexLt, hxz]
          · simp only [lexLt, lt_self_iff_false, if_false] at h1 h2 ⊢
            exact lexLt_trans h1 h2
          · simp only [lexLt, if_neg (lt_asymm hxz), if_pos hxz] at h2
            cases h2
        · simp only [lexLt, if_neg (lt_asymm hxy), if_pos hxy] at h1
          cases h1

theorem lexLt_eq_of_both_false : ∀ {a b : List Char},
    lexLt a b = false → lexLt b a = false → a = b
  | [], [], _, _ => rfl
  | [], _ :: _, h1, _ => by simp [lexLt] at h1
  | _ :: _, [], _, h2 => by simp [lexLt] at h2
  | x :: xs, y :: ys, h1, h2 => by
    rcases lt_trichotomy x y with hxy | rfl | hxy
    · simp only [lexLt, if_pos hxy] at h1
      cases h1
    · simp only [lexLt, lt_self_iff_false, if_false] at h1 h2
      rw [lexLt_eq_of_both_false h1 h2]
    · simp only [lexLt, if_pos hxy] at h2
      cases h2

theorem strLt_trans {a b c : String} (h1 : strLt a b = true)
    (h2 : strLt b c = true) : strLt a c = true :=
  lexLt_trans h1 h2

theorem strLt_ne {a b : String} (h : strLt a b = true) : a ≠ b := by
  rintro rfl
  rw [strLt, lexLt_irrefl] at h
  cases h

theorem strLt_of_not {a b : String} (hne : a ≠ b) (h : strLt a b = false) :
    strLt b a = true := by
  cases hb : strLt b a with
  | true => rfl
  | false => exact absurd (String.ext (lexLt_eq_of_both_false h hb)) hne

theorem mem_insUnion (x a : String) (l : List String) :
    a ∈ insUnion x l ↔ a = x ∨ a ∈ l := by
  induction l with
  | nil => simp [insUnion]
  | cons y ys ih =>
    simp only [insUnion]
    by_cases hxy : x = y
    · rw [if_pos hxy]
      subst hxy
      simp [List.mem_cons]
    · rw [if_neg hxy]
      by_cases hlt : strLt x y = true
      · rw [if_pos hlt]
        simp [List.mem_cons]
      · rw [if_neg hlt]
        simp [List.mem_cons, ih]
        tauto

theorem pairwise_insUnion (x : String) (l : List String)
    (h : l.Pairwise (fun p q => strLt p q = true)) :
    (insUnion x l).Pairwise (fun p q => strLt p q = true) := by
  induction l with
  | nil => simp [insUnion]
  | cons y ys ih =>
    rw [List.pairwise_cons] at h
    obtain ⟨hy, hys⟩ := h
    simp only [insUnion]
    by_cases hxy : x = y
    · rw [if_pos hxy]
      exact List.pairwise_cons.mpr ⟨hy, hys⟩
    · rw [if_neg hxy]
      by_cases hlt : strLt x y = true
      · rw [if_pos hlt]
        refine List.pairwise_cons.mpr ⟨?_, List.pairwise_cons.mpr ⟨hy, hys⟩⟩
        intro z hz
        rcases List.mem_cons.mp hz with rfl | hz'
        · exact hlt
        · exact strLt_trans hlt (hy z hz')
      · rw [if_neg hlt]
        refine List.pairwise_cons.mpr ⟨?_, ih hys⟩
        intro z hz
        rcases (mem_insUnion x z ys).mp hz with rfl | hz'
        · exact strLt_of_not hxy (Bool.not_eq_true _ ▸ hlt)
        · exact hy z hz'

theorem sortedUnion_pairwise (xs ys : List String) :
    (sortedUnion xs ys).Pairwise (fun p q => strLt p q = true) := by
  unfold sortedUnion
  generalize xs ++ ys = l
  induction l with
  | nil => simp
  | cons a t ih => exact pairwise_insUnion a _ ih

theorem mem_sortedUnion (xs ys : List String) (a : String) :
    a ∈ sortedUnion xs ys ↔ a ∈ xs ∨ a ∈ ys := by
  have key : ∀ l : List String, a ∈ l.foldr insUnion [] ↔ a ∈ l := by
    intro l
    induction l with
    | nil => simp
    | cons x t ih => simp [List.foldr, mem_insUnion, ih, List.mem_cons]
  rw [sortedUnion, key, List.mem_append]

/-! ## Lemmas about `lookup` -/

theorem lookup_eq_none_iff {α : Type} (k : String) (m : List (String × α)) :
    lookup k m = none ↔ k ∉ m.map Prod.fst := by
  induction m with
  | nil => simp [lookup]
  | cons p rest ih =>
    obtain ⟨k', v⟩ := p
    simp only [lookup, List.map_cons, List.mem_cons]
    by_cases h : k' = k
    · rw [if_pos h]
      simp [h]
    · rw [if_neg h]
      rw [ih]
      constructor
      · intro h1 h2
        rcases h2 with rfl | h2
        · exact h rfl
        · exact h1 h2
      · intro h1 h2
        exact h1 (Or.inr h2)

theorem lookup_some_mem_keys {α : Type} {k : String} {m : List (String × α)}
    {v : α} (h : lookup k m = some v) : k ∈ m.map Prod.fst := by
  by_cases hk : k ∈ m.map Prod.fst
  · exact hk
  · rw [← lookup_eq_none_iff k m] at hk
    rw [hk] at h
    cases h

theorem mem_keys_lookup {α : Type} {k : String} {m : List (String × α)}
    (h : k ∈ m.map Prod.fst) : ∃ v, lookup k m = some v := by
  cases hl : lookup k m with
  | some v => exact ⟨v, rfl⟩
  | none => exact absurd h ((lookup_eq_none_iff k m).mp hl)

theorem lookup_mem {α : Type} {k : String} {m : List (String × α)} {v : α}
    (h : lookup k m = some v) : (k, v) ∈ m := by
  induction m with
  | nil => cases h
  | cons p rest ih =>
    obtain ⟨k', v'⟩ := p
    rw [lookup] at h
    by_cases hk : k' = k
    · rw [if_pos hk] at h
      injection h with h
      subst hk
      subst h
      exact List.mem_cons_self _ _
    · rw [if_neg hk] at h
      exact List.mem_cons_of_mem _ (ih h)

/-! ## Lemmas about `collect_files` -/

theorem foldl_append_eq_flatMap {α β : Type} (f : α → List β) :
    ∀ (l : List α) (acc : List β),
      l.foldl (fun a e => a ++ f e) acc = acc ++ l.flatMap f
  | [], acc => by simp
  | x :: t, acc => by
    simp only [List.foldl_cons, List.flatMap_cons]
    rw [foldl_append_eq_flatMap f t (acc ++ f x), List.append_assoc]

theorem collect_files_eq (t : FSTree) (rules : List Regex) :
    collect_files (some t) rules = (walkRel t).flatMap (dirFiles rules) := by
  have h : collect_files (some t) rules =
      (walkRel t).foldl (fun acc e => acc ++ dirFiles rules e) [] := rfl
  rw [h, foldl_append_eq_flatMap, List.nil_append]

/-- Membership in the collected index, characterised by the walk: a pair
`(rel, fd)` is recorded exactly when some walked directory (the file's
parent) lists the file, the parent is the root or not ignored, and the
file's own relative path is not ignored. -/
theorem mem_collect_iff (t : FSTree) (rules : List Regex) (rel : String)
    (fd : FileData) :
    (rel, fd) ∈ collect_files (some t) rules ↔
      ∃ rd files fname, (rd, files) ∈ walkRel t ∧ (fname, fd) ∈ files ∧
        rel = joinRel rd fname ∧
        (rd = "." ∨ should_ignore rd rules = false) ∧
        should_ignore rel rules = false := by
  rw [collect_files_eq, List.mem_flatMap]
  constructor
  · rintro ⟨⟨rd, files⟩, he, hmem⟩
    unfold dirFiles at hmem
    dsimp only at hmem
    by_cases hskip : rd ≠ "." ∧ should_ignore rd rules = true
    · rw [if_pos hskip] at hmem
      cases hmem
    · rw [if_neg hskip] at hmem
      rw [List.mem_filterMap] at hmem
      obtain ⟨⟨fname, fd'⟩, hf, heq⟩ := hmem
      dsimp only at heq
      by_cases hig : should_ignore (joinRel rd fname) rules = true
      · rw [if_pos hig] at heq
        cases heq
      · rw [if_neg hig] at heq
        injection heq with heq
        rw [Prod.mk.injEq] at heq
        obtain ⟨h1, h2⟩ := heq
        refine ⟨rd, files, fname, he, ?_, ?_, ?_, ?_⟩
        · rw [← h2]
          exact hf
        · exact h1.symm
        · rcases not_and_or.mp hskip with h | h
          · exact Or.inl (not_not.mp h)
          · exact Or.inr (Bool.not_eq_true _ ▸ h)
        · rw [← h1]
          exact Bool.not_eq_true _ ▸ hig
  · rintro ⟨rd, files, fname, he, hf, rfl, hcond, hig⟩
    refine ⟨(rd, files), he, ?_⟩
    unfold dirFiles
    dsimp only
    have hc1 : ¬(rd ≠ "." ∧ should_ignore rd rules = true) := by
      rintro ⟨hne, hit⟩
      rcases hcond with h | h
      · exact hne h
      · rw [h] at hit
        cases hit
    rw [if_neg hc1, List.mem_filterMap]
    refine ⟨(fname, fd), hf, ?_⟩
    dsimp only
    rw [if_neg (by rw [hig]; exact Bool.false_ne_true)]

theorem mem_keys_collect_not_ignored {t : FSTree} {rules : List Regex}
    {rel : String} (h : rel ∈ keys (collect_files (some t) rules)) :
    should_ignore rel rules = false := by
  unfold keys at h
  rw [List.mem_map] at h
  obtain ⟨⟨rel', fd⟩, hmem, heq⟩ := h
  cases heq
  obtain ⟨_, _, _, _, _, _, _, hig⟩ := (mem_collect_iff _ _ _ _).mp hmem
  exact hig

/-- Strings append associatively. -/
theorem strAppend_assoc (a b c : String) : a ++ b ++ c = a ++ (b ++ c) := by
  apply String.ext
  rw [String.data_append, String.data_append, String.data_append,
    String.data_append, List.append_assoc]

/-! ## Lemmas about `compare` -/

theorem compareStep_ok_path {a b : TreeIndex} {rel : String}
    {r : DiffResult} (h : compareStep a b rel = .ok r) : r.path = rel := by
  unfold compareStep classifyBoth at h
  split at h
  · split at h
    · cases h
    · split at h
      · cases h
      · split at h
        · injection h with h
          rw [← h]
        · injection h with h
          rw [← h]
  · injection h with h
    rw [← h]
  · injection h with h
    rw [← h]

theorem compareStep_error_of_unreadable {a b : TreeIndex} {rel : String}
    {fda fdb : FileData} (ha : lookup rel a = some fda)
    (hb : lookup rel b = some fdb)
    (hun : fda.readable = false ∨ fdb.readable = false) :
    ∃ e, compareStep a b rel = .error e := by
  rcases hun with h | h
  · refine ⟨⟨rel, Side.A⟩, ?_⟩
    have hga : get_md5 fda 4096 = none := by simp [get_md5, h]
    simp only [compareStep, ha, hb, classifyBoth, hga]
  · cases hma : get_md5 fda 4096 with
    | none =>
      refine ⟨⟨rel, Side.A⟩, ?_⟩
      simp only [compareStep, ha, hb, classifyBoth, hma]
    | some da =>
      refine ⟨⟨rel, Side.B⟩, ?_⟩
      have hgb : get_md5 fdb 4096 = none := by simp [get_md5, h]
      simp only [compareStep, ha, hb, classifyBoth, hma, hgb]

theorem compareStep_ok_of_readable {a b : TreeIndex} {rel : String}
    (hmem : rel ∈ keys a ∨ rel ∈ keys b)
    (hread : ∀ rel' fda fdb, lookup rel' a = some fda →
      lookup rel' b = some fdb → fda.readable = true ∧ fdb.readable = true) :
    ∃ r, compareStep a b rel = .ok r := by
  cases ha : lookup rel a with
  | some fda =>
    cases hb : lookup rel b with
    | some fdb =>
      obtain ⟨hra, hrb⟩ := hread rel fda fdb ha hb
      have hga : get_md5 fda 4096 =
          some (hexdigest ((readChunks 4096 fda.content).foldl md5update md5init)) := by
        simp [get_md5, hra]
      have hgb : get_md5 fdb 4096 =
          some (hexdigest ((readChunks 4096 fdb.content).foldl md5update md5init)) := by
        simp [get_md5, hrb]
      cases hstep : compareStep a b rel with
      | ok r => exact ⟨r, rfl⟩
      | error e =>
        exfalso
        simp only [compareStep, ha, hb, classifyBoth, hga, hgb] at hstep
        split at hstep
        · cases hstep
        · cases hstep
    | none =>
      cases hstep : compareStep a b rel with
      | ok r => exact ⟨r, rfl⟩
      | error e =>
        exfalso
        simp only [compareStep, ha, hb] at hstep
        exact Except.noConfusion hstep
  | none =>
    cases hb : lookup rel b with
    | some fdb =>
      cases hstep : compareStep a b rel with
      | ok r => exact ⟨r, rfl⟩
      | error e =>
        exfalso
        simp only [compareStep, ha, hb] at hstep
        exact Except.noConfusion hstep
    | none =>
      rcases hmem with h | h
      · obtain ⟨v, hv⟩ := mem_keys_lookup h
        rw [hv] at ha
        cases ha
      · obtain ⟨v, hv⟩ := mem_keys_lookup h
        rw [hv] at hb
        cases hb

theorem compareLoop_paths_sublist (a b : TreeIndex) (l : List String) :
    ((compareLoop a b l).1.map DiffResult.path).Sublist l := by
  induction l with
  | nil => simp [compareLoop]
  | cons rel rest ih =>
    rw [compareLoop]
    cases h : compareStep a b rel with
    | error e => simp
    | ok r =>
      simp only [List.map_cons]
      rw [compareStep_ok_path h]
      exact ih.cons₂ rel

theorem compareLoop_results {a b : TreeIndex} (l : List String)
    (hmem : ∀ rel ∈ l, rel ∈ keys a ∨ rel ∈ keys b)
    (hread : ∀ rel fda fdb, lookup rel a = some fda →
      lookup rel b = some fdb → fda.readable = true ∧ fdb.readable = true) :
    (compareLoop a b l).1.map DiffResult.path = l ∧
      (compareLoop a b l).2 = none := by
  induction l with
  | nil => simp [compareLoop]
  | cons rel rest ih =>
    obtain ⟨r, hr⟩ :=
      compareStep_ok_of_readable (hmem rel (List.mem_cons_self rel rest)) hread
    obtain ⟨ih1, ih2⟩ := ih (fun x hx => hmem x (List.mem_cons_of_mem _ hx))
    rw [compareLoop, hr]
    simp only [List.map_cons]
    rw [compareStep_ok_path hr, ih1, ih2]
    exact ⟨rfl, rfl⟩

theorem compareLoop_error_skips {a b : TreeIndex} (l : List String)
    (rel : String) (hrel : rel ∈ l)
    (herr : ∃ e, compareStep a b rel = .error e) :
    (compareLoop a b l).2.isSome = true ∧
      rel ∉ (compareLoop a b l).1.map DiffResult.path := by
  induction l with
  | nil => cases hrel
  | cons x rest ih =>
    by_cases hx : x = rel
    · subst hx
      obtain ⟨e, he⟩ := herr
      rw [compareLoop, he]
      exact ⟨rfl, by simp⟩
    · cases hstep : compareStep a b x with
      | error e =>
        rw [compareLoop, hstep]
        exact ⟨rfl, by simp⟩
      | ok r =>
        have hrest : rel ∈ rest := by
          rcases List.mem_cons.mp hrel with h | h
          · exact absurd h.symm hx
          · exact h
        obtain ⟨h1, h2⟩ := ih hrest
        rw [compareLoop, hstep]
        refine ⟨h1, ?_⟩
        simp only [List.map_cons, List.mem_cons]
        rintro (h | h)
        · rw [compareStep_ok_path hstep] at h
          exact hx h.symm
        · exact h2 h

theorem compareLoop_mem_step {a b : TreeIndex} {l : List String}
    {r : DiffResult} (h : r ∈ (compareLoop a b l).1) :
    ∃ rel ∈ l, compareStep a b rel = .ok r := by
  induction l with
  | nil => cases h
  | cons x rest ih =>
    rw [compareLoop] at h
    cases hstep : compareStep a b x with
    | error e =>
      rw [hstep] at h
      cases h
    | ok r' =>
      rw [hstep] at h
      rcases List.mem_cons.mp h with rfl | h'
      · exact ⟨x, List.mem_cons_self x rest, hstep⟩
      · obtain ⟨rel, hmem, hok⟩ := ih h'
        exact ⟨rel, List.mem_cons_of_mem _ hmem, hok⟩

theorem compareStep_ok_shape {a b : TreeIndex} {rel : String}
    {r : DiffResult} (h : compareStep a b rel = .ok r) :
    (r.tag = ResultTag.identical → r.md5A = none ∧ r.md5B = none ∧
      r.metaA = none ∧ r.metaB = none) ∧
    (r.tag = ResultTag.differing → ∃ fda fdb,
      lookup rel a = some fda ∧ lookup rel b = some fdb ∧
      r.metaA = some (get_file_info fda) ∧
      r.metaB = some (get_file_info fdb)) := by
  cases ha : lookup rel a with
  | some fda =>
    cases hb : lookup rel b with
    | some fdb =>
      simp only [compareStep, ha, hb, classifyBoth] at h
      cases hma : get_md5 fda 4096 with
      | none =>
        simp only [hma] at h
        exact Except.noConfusion h
      | some da =>
        simp only [hma] at h
        cases hmb : get_md5 fdb 4096 with
        | none =>
          simp only [hmb] at h
          exact Except.noConfusion h
        | some db =>
          simp only [hmb] at h
          split at h
          · injection h with h
            subst h
            exact ⟨fun ht => ResultTag.noConfusion ht,
              fun _ => ⟨fda, fdb, rfl, rfl, rfl, rfl⟩⟩
          · injection h with h
            subst h
            exact ⟨fun _ => ⟨rfl, rfl, rfl, rfl⟩,
              fun ht => ResultTag.noConfusion ht⟩
    | none =>
      simp only [compareStep, ha, hb] at h
      injection h with h
      subst h
      exact ⟨fun ht => ResultTag.noConfusion ht,
        fun ht => ResultTag.noConfusion ht⟩
  | none =>
    simp only [compareStep, ha] at h
    injection h with h
    subst h
    exact ⟨fun ht => ResultTag.noConfusion ht,
      fun ht => ResultTag.noConfusion ht⟩

/-! ## Lemmas about `get_md5` -/

theorem chunksFuel_foldl {n : Nat} (hn : 0 < n) :
    ∀ (fuel : Nat) (l acc : List Nat), l.length ≤ fuel →
      (chunksFuel fuel n l).foldl md5update acc = acc ++ l
  | 0, l, acc, hl => by
    rw [List.length_eq_zero.mp (Nat.le_zero.mp hl)]
    simp [chunksFuel]
  | f + 1, [], acc, _ => by simp [chunksFuel]
  | f + 1, x :: xs, acc, hl => by
    rw [chunksFuel, List.foldl_cons]
    rw [chunksFuel_foldl hn f ((x :: xs).drop n) (md5update acc ((x :: xs).take n)) ?_]
    · rw [md5update, List.append_assoc, List.take_append_drop]
    · rw [List.length_drop, List.length_cons]
      rw [List.length_cons] at hl
      omega

theorem get_md5_eq {fd : FileData} (hr : fd.readable = true) {chunk : Nat}
    (hc : 0 < chunk) : get_md5 fd chunk = some (md5hex fd.content) := by
  unfold get_md5
  rw [if_pos hr]
  unfold hexdigest readChunks md5init
  rw [if_neg (by omega : ¬ chunk = 0)]
  rw [chunksFuel_foldl hc fd.content.length fd.content [] le_rfl]
  rw [List.nil_append]

theorem md5hex_length (msg : List Nat) : (md5hex msg).length = 32 := rfl

theorem hexChars_getD_mem (n : Nat) (h : n < 16) :
    hexChars.getD n '0' ∈ hexChars := by
  interval_cases n <;> decide

theorem le4_mem_lt {w : Nat} {x : Nat} (h : x ∈ le4 w) : x < 256 := by
  simp only [le4, List.mem_cons, List.not_mem_nil, or_false] at h
  rcases h with rfl | rfl | rfl | rfl <;> exact Nat.mod_lt _ (by norm_num)

theorem md5hex_chars (msg : List Nat) :
    ∀ c ∈ (md5hex msg).data, c ∈ hexChars := by
  intro c hc
  have hdata : (md5hex msg).data =
      (le4 (md5core msg).1 ++ le4 (md5core msg).2.1 ++
        le4 (md5core msg).2.2.1 ++ le4 (md5core msg).2.2.2).flatMap byteHex := rfl
  rw [hdata, List.mem_flatMap] at hc
  obtain ⟨bt, hb, hcb⟩ := hc
  have hlt : bt < 256 := by
    rcases List.mem_append.mp hb with h | h
    · rcases List.mem_append.mp h with h | h
      · rcases List.mem_append.mp h with h | h
        · exact le4_mem_lt h
        · exact le4_mem_lt h
      · exact le4_mem_lt h
    · exact le4_mem_lt h
  simp only [byteHex, List.mem_cons, List.not_mem_nil, or_false] at hcb
  rcases hcb with rfl | rfl
  · exact hexChars_getD_mem _ (by omega)
  · exact hexChars_getD_mem _ (by omega)

/-! ## Lemmas about the configuration loop -/

theorem processSection_configError (fsys : String → Option FSTree)
    (compile : String → Regex) (s : ConfigSection)
    (h : (folder_keys s).length ≠ 2) :
    processSection fsys compile s =
      [Event.configError s.name (folder_keys s).length] := by
  unfold processSection
  rcases hf : folder_keys s with _ | ⟨a, _ | ⟨b, _ | ⟨c, t⟩⟩⟩
  · rfl
  · rfl
  · rw [hf] at h
    simp at h
  · rfl

theorem processSections_append (fsys : String → Option FSTree)
    (compile : String → Regex) (l1 l2 : List ConfigSection) :
    processSections fsys compile (l1 ++ l2) =
      processSections fsys compile l1 ++ processSections fsys compile l2 := by
  induction l1 with
  | nil => simp [processSections]
  | cons s t ih =>
    rw [List.cons_append, processSections, processSections, ih,
      List.append_assoc]

/-! ## Claim theorems -/

/-- C1 (counterexample): with the rule `skip` and a tree containing the
subdirectory `skip` (whose relative path matches the rule), the collector's
traversal still visits `skip`, still descends to `skip/deep` inside the
excluded subtree, and still obtains the file listing of `skip` — diff.py's
`collect_files` never edits `os.walk`'s `dirs` list, so it filters results
instead of pruning the traversal, contradicting the claim that the
collector does not visit or read inside the excluded subtree. -/
theorem c1_counterexample :
    should_ignore "skip" exRulesC1 = true ∧
    "skip" ∈ visitedDirs (some exTreeC1) ∧
    "skip/deep" ∈ visitedDirs (some exTreeC1) ∧
    ("skip", [("f.txt", exFdX)]) ∈ walkRel exTreeC1 := by decide

/-- C1 (amended): for every root tree, rule set and string `d` matching an
exclusion rule, the produced TreeIndex contains no file beneath `d` (no key
of the form `d ++ "/" ++ rest`) — but the exclusion is achieved by
filtering during traversal, not by pruning: the collector still visits the
excluded subtree (see the counterexample). -/
theorem c1_amended (t : FSTree) (rules : List Regex) (d : String)
    (hd : should_ignore d rules = true) :
    ∀ rel ∈ keys (collect_files (some t) rules),
      ¬ ∃ rest : String, rel = d ++ "/" ++ rest := by
  intro rel hrel hex
  obtain ⟨rest, rfl⟩ := hex
  have h1 : should_ignore (d ++ "/" ++ rest) rules = true := by
    rw [strAppend_assoc]
    exact should_ignore_extend d ("/" ++ rest) rules hd
  have h2 := mem_keys_collect_not_ignored hrel
  rw [h1] at h2
  cases h2

/-- C1 (witness): the amended theorem applied to the concrete tree and the
rule `skip`, at the surviving file `f1.txt`. -/
theorem c1_amended_witness :
    ¬ ∃ rest : String, "f1.txt" = "skip" ++ "/" ++ rest :=
  c1_amended exTreeC1 exRulesC1 "skip" (by decide) "f1.txt" (by decide)

/-- C2 (counterexample): with `a.txt` unreadable on side A and `b.txt`
readable and present in both trees, diff.py's compare emits no per-path
record at all (no HashError classification for `a.txt`), the uncaught
exception escapes to the caller, and the remaining path `b.txt` of the
union is never processed — contradicting the claim that the engine
degrades the single path and continues. -/
theorem c2_counterexample :
    (compare exA2 exB2).1 = [] ∧
    (compare exA2 exB2).2 = some ⟨"a.txt", Side.A⟩ ∧
    "b.txt" ∈ sortedUnion (keys exA2) (keys exB2) := by decide

/-- C2 (amended): when computing the digest fails for a path present in
both trees, the failure is raised to the top level (the comparison aborts
with an uncaught exception) and that path receives no classification at
all; remaining paths are not guaranteed to be processed. -/
theorem c2_amended (a b : TreeIndex) (rel : String) (fda fdb : FileData)
    (ha : lookup rel a = some fda) (hb : lookup rel b = some fdb)
    (hun : fda.readable = false ∨ fdb.readable = false) :
    (compare a b).2.isSome = true ∧
      rel ∉ (compare a b).1.map DiffResult.path := by
  have hrel : rel ∈ sortedUnion (keys a) (keys b) :=
    (mem_sortedUnion _ _ rel).mpr (Or.inl (lookup_some_mem_keys ha))
  exact compareLoop_error_skips _ rel hrel
    (compareStep_error_of_unreadable ha hb hun)

/-- C2 (witness): the amended theorem at the concrete indexes with the
unreadable `a.txt`. -/
theorem c2_witness :
    (compare exA2 exB2).2.isSome = true ∧
      "a.txt" ∉ (compare exA2 exB2).1.map DiffResult.path :=
  c2_amended exA2 exB2 "a.txt" exFdBad exFdX (by decide) (by decide)
    (Or.inl (by decide))

/-- C3 (counterexample): when hashing `x.txt` fails, the union member
`y.txt` receives no classification at all (the result path set omits it),
so classification completeness over the union fails; no HashError
classification exists — the failure surfaces as an escaped exception. -/
theorem c3_counterexample :
    "y.txt" ∈ sortedUnion (keys exA3) (keys exB3) ∧
    "y.txt" ∉ (compare exA3 exB3).1.map DiffResult.path ∧
    (compare exA3 exB3).2 = some ⟨"x.txt", Side.A⟩ := by decide

/-- C3 (amended): when every digest computation succeeds, compare produces
exactly one classification per path (drawn from identical / differing /
only-in-A / only-in-B), and the emitted path sequence is exactly the
deduplicated sorted union of the two key sets — no omissions, no
duplicates. -/
theorem c3_amended (a b : TreeIndex)
    (hread : ∀ rel fda fdb, lookup rel a = some fda →
      lookup rel b = some fdb → fda.readable = true ∧ fdb.readable = true) :
    (compare a b).1.map DiffResult.path = sortedUnion (keys a) (keys b) ∧
    (compare a b).2 = none ∧
    (∀ p, p ∈ sortedUnion (keys a) (keys b) ↔ p ∈ keys a ∨ p ∈ keys b) ∧
    (sortedUnion (keys a) (keys b)).Nodup := by
  obtain ⟨h1, h2⟩ := compareLoop_results (sortedUnion (keys a) (keys b))
    (fun rel h => (mem_sortedUnion _ _ rel).mp h) hread
  refine ⟨h1, h2, fun p => mem_sortedUnion _ _ p, ?_⟩
  exact (sortedUnion_pairwise (keys a) (keys b)).imp (fun h => strLt_ne h)

/-- C3 (witness): the amended theorem on the specification's concrete
scenario (`f1.txt` in both, `f2.txt` only in A, `f3.txt` only in B). -/
theorem c3_witness :
    (compare exA3w exB3w).1.map DiffResult.path =
      sortedUnion (keys exA3w) (keys exB3w) ∧
    (compare exA3w exB3w).2 = none :=
  (fun h => ⟨h.1, h.2.1⟩)
    (c3_amended exA3w exB3w (by
      intro rel fda fdb ha hb
      have h1 := lookup_mem ha
      have h2 := lookup_mem hb
      simp only [exA3w, List.mem_cons, List.not_mem_nil, or_false,
        Prod.mk.injEq] at h1
      simp only [exB3w, List.mem_cons, List.not_mem_nil, or_false,
        Prod.mk.injEq] at h2
      rcases h1 with ⟨_, rfl⟩ | ⟨_, rfl⟩ <;>
        rcases h2 with ⟨_, rfl⟩ | ⟨_, rfl⟩ <;> exact ⟨rfl, rfl⟩))

/-- C4 (confirmed): the sequence of records compare emits is strictly
sorted by relative path in code-point lexicographic order (Python's string
order), for every pair of tree indexes — hence regardless of enumeration
order; this also holds for the partial output emitted before an abort. -/
theorem c4_sorted (a b : TreeIndex) :
    ((compare a b).1.map DiffResult.path).Pairwise
      (fun p q => strLt p q = true) :=
  List.Pairwise.sublist (compareLoop_paths_sublist a b _)
    (sortedUnion_pairwise _ _)

/-- C5 (confirmed): `should_ignore` returns true exactly when some rule's
pattern fully matches some factor (substring at any position) of the path
string — unanchored search, not full match — and an empty rule set matches
nothing. -/
theorem c5_matches (path : String) (rules : List Regex) :
    (should_ignore path rules = true ↔
      ∃ r ∈ rules, ∃ xs ms ys,
        path.data = xs ++ ms ++ ys ∧ matchList r ms = true) ∧
    should_ignore path [] = false :=
  ⟨should_ignore_iff path rules, rfl⟩

/-- C6 (counterexample): invoked on a nonexistent root (with the same rule
set as the C1 scenario), `collect_files` does not fail with any
DirectoryNotFound condition — `os.walk` silently swallows the scandir
error — and it returns the empty index normally. -/
theorem c6_counterexample : collect_files none exRulesC1 = [] := rfl

/-- C6 (amended): invoked on a nonexistent root, `collect_files` returns
normally with an empty TreeIndex for every rule set; no error condition is
reported to the caller (`os.walk`'s default `onerror=None` ignores the
failure to list the root). -/
theorem c6_amended (rules : List Regex) : collect_files none rules = [] :=
  rfl

/-- C7 (confirmed): records classified identical carry no digests and no
metadata; records classified differing carry `get_file_info` metadata of
both sides, looked up at that path; and `get_file_info` degrades both
fields to null exactly when `os.stat` fails, returning size and formatted
modification time otherwise. -/
theorem c7_metadata :
    (∀ (a b : TreeIndex) (r : DiffResult), r ∈ (compare a b).1 →
      (r.tag = ResultTag.identical →
        r.md5A = none ∧ r.md5B = none ∧ r.metaA = none ∧ r.metaB = none) ∧
      (r.tag = ResultTag.differing → ∃ fda fdb,
        lookup r.path a = some fda ∧ lookup r.path b = some fdb ∧
        r.metaA = some (get_file_info fda) ∧
        r.metaB = some (get_file_info fdb))) ∧
    (∀ fd : FileData,
      (fd.statOk = false → get_file_info fd = ⟨none, none⟩) ∧
      (fd.statOk = true → get_file_info fd = ⟨some fd.size, some fd.mtime⟩)) := by
  constructor
  · intro a b r hr
    obtain ⟨rel, _, hok⟩ := compareLoop_mem_step hr
    rw [compareStep_ok_path hok]
    exact compareStep_ok_shape hok
  · intro fd
    constructor
    · intro h
      unfold get_file_info
      rw [if_neg (by rw [h]; exact Bool.false_ne_true)]
    · intro h
      unfold get_file_info
      rw [if_pos h]

/-- C7 (witness): the shape theorem applied to the concrete differing
record of `compare exA7 exB7`, whose side B has a failing stat and hence
null metadata fields. -/
theorem c7_witness :
    (exR7.tag = ResultTag.identical →
      exR7.md5A = none ∧ exR7.md5B = none ∧
        exR7.metaA = none ∧ exR7.metaB = none) ∧
    (exR7.tag = ResultTag.differing → ∃ fda fdb,
      lookup exR7.path exA7 = some fda ∧ lookup exR7.path exB7 = some fdb ∧
      exR7.metaA = some (get_file_info fda) ∧
      exR7.metaB = some (get_file_info fdb)) :=
  c7_metadata.1 exA7 exB7 exR7 (by decide)

/-- C8 (counterexample): `get_md5` with chunk size 0 reads `b""` at once
(`f.read(0)` is falsy), so the loop never runs and the digest is that of
the empty byte string, regardless of the file's content — the same
readable file therefore yields different digests under chunk sizes 0 and
4096, contradicting "regardless of chunk size used". -/
theorem c8_counterexample :
    exFdA8.readable = true ∧
    get_md5 exFdA8 0 = some (md5hex []) ∧
    get_md5 exFdA8 0 ≠ get_md5 exFdA8 4096 := by decide

/-- C8 (amended): for every readable file and every positive chunk size,
`get_md5` returns the MD5 digest of the file's entire byte content as a
32-character string over the lowercase hexadecimal alphabet, and any two
readable files with equal byte content — whatever their modification
times and (positive) chunk sizes — yield identical digests. -/
theorem c8_amended (fd : FileData) (chunk : Nat) (hr : fd.readable = true)
    (hc : 0 < chunk) :
    get_md5 fd chunk = some (md5hex fd.content) ∧
    (md5hex fd.content).length = 32 ∧
    (∀ c ∈ (md5hex fd.content).data, c ∈ hexChars) ∧
    (∀ (fd2 : FileData) (chunk2 : Nat), fd2.readable = true → 0 < chunk2 →
      fd2.content = fd.content → get_md5 fd2 chunk2 = get_md5 fd chunk) := by
  refine ⟨get_md5_eq hr hc, md5hex_length _, md5hex_chars _, ?_⟩
  intro fd2 chunk2 hr2 hc2 hcc
  rw [get_md5_eq hr2 hc2, get_md5_eq hr hc, hcc]

/-- C8 (witness): the amended theorem at a concrete one-byte file with
chunk size 3. -/
theorem c8_witness :
    get_md5 exFdA8 3 = some (md5hex exFdA8.content) ∧
    (md5hex exFdA8.content).length = 32 :=
  (fun h => ⟨h.1, h.2.1⟩) (c8_amended exFdA8 3 rfl (by norm_num))

/-- C9 (confirmed): a configuration section whose count of `folder_`-keys
differs from two contributes exactly one reported configuration error (and
runs no comparison job), while every earlier and later section is
processed exactly as it would be on its own. -/
theorem c9_sections (fsys : String → Option FSTree)
    (compile : String → Regex) (pre : List ConfigSection)
    (s : ConfigSection) (suf : List ConfigSection)
    (h : (folder_keys s).length ≠ 2) :
    processSections fsys compile (pre ++ s :: suf) =
      processSections fsys compile pre ++
        Event.configError s.name (folder_keys s).length ::
          processSections fsys compile suf := by
  rw [processSections_append]
  congr 1
  rw [show processSections fsys compile (s :: suf) =
    processSection fsys compile s ++ processSections fsys compile suf from
    rfl]
  rw [processSection_configError fsys compile s h]
  rfl

/-- C9 (witness): the section theorem at a concrete configuration whose
first section has three `folder_` keys, followed by another section. -/
theorem c9_witness :
    processSections exFsEmpty exCompile ([] ++ exSecBad :: [exSecNext]) =
      processSections exFsEmpty exCompile [] ++
        Event.configError exSecBad.name (folder_keys exSecBad).length ::
          processSections exFsEmpty exCompile [exSecNext] :=
  c9_sections exFsEmpty exCompile [] exSecBad [exSecNext] (by decide)

/-- C10 (confirmed): a pair (relative path, file) is recorded in the index
built by `collect_files` exactly when some walked directory — the file's
parent, with relative path `rd` — lists that file under a name `fname`
with `rel = joinRel rd fname`, the parent is the root itself or its
relative path does not match the rules, and the file's own relative path
does not match the rules.  Deeper ancestors influence the outcome only
through their occurrence as substrings of these two relative paths. -/
theorem c10_inclusion (t : FSTree) (rules : List Regex) (rel : String)
    (fd : FileData) :
    (rel, fd) ∈ collect_files (some t) rules ↔
      ∃ rd files fname, (rd, files) ∈ walkRel t ∧ (fname, fd) ∈ files ∧
        rel = joinRel rd fname ∧
        (rd = "." ∨ should_ignore rd rules = false) ∧
        should_ignore rel rules = false :=
  mem_collect_iff t rules rel fd

end SyncDiff

